import Mathlib

/-!
# freetype-gl font manager (`font-manager.c`)

A shallow embedding of the font registry of `font-manager.c` and the properties of it
that are stated in the specification.

Conventions of the embedding.

* The registry `font_manager_t *self` is the record `font_manager_t`; every function takes the
  record and returns the record it leaves behind (`outcome.self`).
* A `texture_font_t *` is the record `texture_font_t`: the address of the font object
  (`handle`) together with the two identity fields the registry reads through the pointer
  (`filename`, `size`).  Two records are the same resource only if their handles agree.
* A C `float` is an IEEE-754 binary32 value given by its three bit fields; `float_eq` is the
  C operator `==` on it.
* A `const char *` string is the list of its bytes before the terminator; a `wchar_t *` is the
  list of cells readable from the pointer (terminator included), because `wcsdup` is part of
  the source and copies cell by cell.  A null pointer argument is `none`.
* Calls to collaborators (font loader, glyph pre-load, font matching service, diagnostics on
  `stderr`, releases) are recorded, in program order, in `outcome.trace`.
* The collaborators whose answer the registry branches on are fields of `environment`.
* A function that can stop the program (`assert`, `exit`) or read past a buffer returns
  `Option`; `none` is "the call does not return".
-/

namespace FontManager

/-! ## Values -/

/-- C `float`: IEEE-754 binary32, as sign bit, biased exponent and fraction field. -/
structure float32 where
  sign : Bool
  exponent : Fin 256
  mantissa : Fin 8388608
deriving DecidableEq, Repr

/-- Not-a-number: exponent all ones and a non-zero fraction. -/
def float32.isNaN (x : float32) : Bool :=
  x.exponent.val == 255 && x.mantissa.val != 0

/-- Positive or negative zero. -/
def float32.isZero (x : float32) : Bool :=
  x.exponent.val == 0 && x.mantissa.val == 0

/-- The C comparison `a == b` on `float`: false as soon as one side is a NaN, true on the two
zeros, otherwise equality of the bit fields. -/
def float_eq (a b : float32) : Bool :=
  !a.isNaN && !b.isNaN && ((a.isZero && b.isZero) || decide (a = b))

/-- A positive size (the input constraint of the lookup by file): sign bit clear, not a NaN,
not zero. -/
def float32.isPositive (x : float32) : Bool :=
  !x.sign && !x.isNaN && !x.isZero

/-- The bytes of a `char *` string before its terminator. -/
abbrev c_string := List Nat

/-- The cells readable from a `wchar_t *`, from the pointee to the end of its object. -/
abbrev wbuffer := List Nat

/-- The libc `strcmp`: zero on equal strings, negative or positive at the first difference. -/
def strcmp : c_string → c_string → Int
  | [], [] => 0
  | [], _ :: _ => -1
  | _ :: _, [] => 1
  | a :: as, b :: bs => if a = b then strcmp as bs else if a < b then -1 else 1

/-- The libc `wcslen`: the number of cells before the first zero cell; `none` when the object
ends before a terminator is met. -/
def wcslen : wbuffer → Option Nat
  | [] => none
  | c :: cs => if c = 0 then some 0 else (wcslen cs).map (· + 1)

/-- The libc `wcscpy (dest, src)`: the cells of `src` up to and including its terminator
overwrite the first cells of `dest`; `none` when `src` has no terminator or `dest` is too
short. -/
def wcscpy : wbuffer → wbuffer → Option wbuffer
  | _, [] => none
  | [], _ :: _ => none
  | _ :: ds, c :: cs => if c = 0 then some (0 :: ds) else (wcscpy ds cs).map (c :: ·)

/-- The libc `malloc` for `cells` cells of `wchar_t`; the allocation is taken to succeed, as the
source does for every allocation whose result it does not test.  The cells are indeterminate in
C; they are zero here, and `wcsdup` overwrites every one of them. -/
def malloc (cells : Nat) : wbuffer := List.replicate cells 0

/-- `wcsdup` (font-manager.c, lines 46-54). -/
def wcsdup (string : Option wbuffer) : Option wbuffer :=
  match string with
  | none => none                                   -- assert( string )
  | some string =>
    match wcslen string with
    | none => none
    | some n => wcscpy (malloc (n + 1)) string

/-- The wide string held by a buffer: its cells before the first zero cell. -/
def wcs (b : wbuffer) : List Nat := b.takeWhile (· ≠ 0)

/-! ## Collaborator records -/

/-- The glyph atlas created by `texture_atlas_new (width, height, depth)`. -/
structure texture_atlas_t where
  width : Nat
  height : Nat
  depth : Nat
deriving DecidableEq, Repr

/-- A font resource: the object's address and the identity fields read by the registry. -/
structure texture_font_t where
  handle : Nat
  filename : c_string
  size : float32
deriving DecidableEq, Repr

/-- The fields of `markup_t` that the registry reads. -/
structure markup_t where
  family : c_string
  size : float32
  bold : Int
  italic : Int
deriving DecidableEq, Repr

/-- The query handed to fontconfig: the four values added to the pattern. -/
structure FcPattern where
  size : float32
  weight : Int
  slant : Int
  family : c_string
deriving DecidableEq, Repr

/-- The best match answered by fontconfig: its `FC_FILE` field, when it has one, and the size
the record carries. -/
structure FcMatch where
  file : Option c_string
  size : float32
deriving DecidableEq, Repr

def FC_WEIGHT_REGULAR : Int := 80
def FC_WEIGHT_BOLD : Int := 200
def FC_SLANT_ROMAN : Int := 0
def FC_SLANT_ITALIC : Int := 100

/-- The messages written to `stderr`. -/
inductive diagnostic where
  | no_more_memory
  | unable_to_load (filename : c_string) (size : float32)
  | description_not_implemented
  | markup_not_implemented
  | no_font_available (family : c_string) (size : float32) (bold italic : Int)
  | fontconfig_could_not_match (family : c_string)
deriving DecidableEq, Repr

/-- The entry points of the registry that a client calls after `font_manager_new`. -/
inductive call where
  | get_from_filename (filename : c_string) (size : float32)
  | get_from_description (family : c_string) (size : float32) (bold italic : Int)
  | get_from_markup (markup : Option markup_t)
  | set_cache (cache : Option wbuffer)
deriving DecidableEq, Repr

/-- One observable step: a call to a collaborator, a release, a diagnostic, or the entry of a
client call (`enter`, written by the client loop only). -/
inductive event where
  | enter (c : call)
  | texture_font_new (atlas : texture_atlas_t) (filename : c_string) (size : float32)
      (result : Option texture_font_t)
  | texture_font_load_glyphs (font : texture_font_t) (cache : Option wbuffer)
  | FcFontMatch (pattern : FcPattern) (result : Option FcMatch)
  | fprintf_stderr (d : diagnostic)
  | free_filename (filename : c_string)
  | texture_font_delete (font : texture_font_t)
  | free_vector (items : List texture_font_t)
  | texture_atlas_delete (atlas : texture_atlas_t)
  | free_cache (cache : wbuffer)
  | free_self
deriving DecidableEq, Repr

/-! ## The vector of fonts -/

/-- The vector `self->fonts` of `texture_font_t *`. -/
abbrev vector_t := List texture_font_t

/-- Modelled from the spec: `vector_new` (vector.c is not among the sources); "allocates an
empty font collection". -/
def vector_new : vector_t := []

/-- Modelled from the spec: `vector_size` (vector.c is not among the sources); the number of
entries of the ordered sequence. -/
def vector_size (v : vector_t) : Nat := v.length

/-- Modelled from the spec: `vector_get` (vector.c is not among the sources); the entry at an
index of the ordered sequence. -/
def vector_get (v : vector_t) (i : Nat) : Option texture_font_t := v.get? i

/-- Modelled from the spec: `vector_push_back` (vector.c is not among the sources); "append the
new resource to the collection". -/
def vector_push_back (v : vector_t) (font : texture_font_t) : vector_t := v ++ [font]

/-- Modelled from the spec: `vector_delete` (vector.c is not among the sources); the release of
"the font collection (each entry disposed by its own destructor)". -/
def vector_delete (v : vector_t) : List event :=
  v.map event.texture_font_delete ++ [event.free_vector v]

/-! ## The registry -/

/-- The registry record `font_manager_t`. -/
structure font_manager_t where
  atlas : texture_atlas_t
  fonts : vector_t
  cache : Option wbuffer
deriving DecidableEq, Repr

/-- What the process outside the registry answers. -/
structure environment where
  /-- Whether `_WIN32` is defined. -/
  WIN32 : Bool
  /-- Whether `_WIN64` is defined. -/
  WIN64 : Bool
  /-- The font loader `texture_font_new (atlas, filename, size)`; `none` is the null pointer. -/
  texture_font_new : texture_atlas_t → c_string → float32 → Option texture_font_t
  /-- The fontconfig matcher, after substitution, on the pattern built by the resolver. -/
  FcFontMatch : FcPattern → Option FcMatch

/-- The result of a call: the returned value, the registry it leaves and what it did. -/
structure outcome (α : Type) where
  ret : α
  self : font_manager_t
  trace : List event
deriving DecidableEq, Repr

/-- The collaborator `texture_atlas_new`. -/
def texture_atlas_new (width height depth : Nat) : texture_atlas_t := ⟨width, height, depth⟩

/-- `font_manager_new` (lines 58-74).  `malloc_self` tells whether the allocation of the
registry record succeeds; when it does not the process exits. -/
def font_manager_new (malloc_self : Bool) (width height depth : Nat) : Option font_manager_t :=
  let atlas := texture_atlas_new width height depth
  if !malloc_self then
    none                                           -- fprintf; exit( EXIT_FAILURE )
  else
    match wcsdup (some [32, 0]) with               -- wcsdup( L" " )
    | none => none
    | some cache => some { atlas := atlas, fonts := vector_new, cache := some cache }

/-- `font_manager_delete` (lines 78-89): the releases it performs, in order. -/
def font_manager_delete (self : font_manager_t) : List event :=
  vector_delete self.fonts
    ++ [event.texture_atlas_delete self.atlas]
    ++ (match self.cache with
        | some cache => [event.free_cache cache]
        | none => [])
    ++ [event.free_self]

/-- The test of line 104 on one entry. -/
def font_matches (font : texture_font_t) (filename : c_string) (size : float32) : Bool :=
  decide (strcmp font.filename filename = 0) && float_eq font.size size

/-- The loop of lines 101-108 over the entries from the current index on: the first entry that
passes the test, if any. -/
def font_manager_get_from_filename.scan (filename : c_string) (size : float32) :
    List texture_font_t → Option texture_font_t
  | [] => none
  | font :: rest =>
    if font_matches font filename size then some font
    else font_manager_get_from_filename.scan filename size rest

/-- `font_manager_get_from_filename` (lines 92-118). -/
def font_manager_get_from_filename (env : environment) (self : font_manager_t)
    (filename : c_string) (size : float32) : outcome (Option texture_font_t) :=
  match font_manager_get_from_filename.scan filename size self.fonts with
  | some font => { ret := some font, self := self, trace := [] }
  | none =>
    match env.texture_font_new self.atlas filename size with
    | some font =>
      { ret := some font
        self := { self with fonts := vector_push_back self.fonts font }
        trace := [event.texture_font_new self.atlas filename size (some font),
                  event.texture_font_load_glyphs font self.cache] }
    | none =>
      { ret := none
        self := self
        trace := [event.texture_font_new self.atlas filename size none,
                  event.fprintf_stderr (diagnostic.unable_to_load filename size)] }

/-- `font_manager_match_description` (lines 171-225): the path it returns (a fresh copy of the
match's file field) and what it did. -/
def font_manager_match_description (env : environment) (_self : font_manager_t)
    (family : c_string) (size : float32) (bold italic : Int) :
    Option c_string × List event :=
  if env.WIN32 || env.WIN64 then
    (none, [])
  else
    let weight := if bold ≠ 0 then FC_WEIGHT_BOLD else FC_WEIGHT_REGULAR
    let slant := if italic ≠ 0 then FC_SLANT_ITALIC else FC_SLANT_ROMAN
    let pattern : FcPattern := { size := size, weight := weight, slant := slant, family := family }
    match env.FcFontMatch pattern with
    | none =>
      (none, [event.FcFontMatch pattern none,
              event.fprintf_stderr (diagnostic.fontconfig_could_not_match family)])
    | some m =>
      match m.file with                            -- FcPatternGet( match, FC_FILE, 0, &value )
      | none =>
        (none, [event.FcFontMatch pattern (some m),
                event.fprintf_stderr (diagnostic.fontconfig_could_not_match family)])
      | some file =>
        (some file, [event.FcFontMatch pattern (some m)])

/-- `font_manager_get_from_description` (lines 122-148).  The directive of line 131,
`#ifdef _WIN32 || _WIN64`, tests its first name only. -/
def font_manager_get_from_description (env : environment) (self : font_manager_t)
    (family : c_string) (size : float32) (bold italic : Int) :
    outcome (Option texture_font_t) :=
  if env.WIN32 then
    { ret := none, self := self,
      trace := [event.fprintf_stderr diagnostic.description_not_implemented] }
  else
    match font_manager_match_description env self family size bold italic with
    | (none, did) =>
      { ret := none, self := self,
        trace := did ++ [event.fprintf_stderr
                  (diagnostic.no_font_available family size bold italic)] }
    | (some filename, did) =>
      let r := font_manager_get_from_filename env self filename size
      { ret := r.ret, self := r.self, trace := did ++ r.trace ++ [event.free_filename filename] }

/-- `font_manager_get_from_markup` (lines 151-168).  The directive of line 158 tests `_WIN32`
only, like the one of line 131. -/
def font_manager_get_from_markup (env : environment) (self : font_manager_t)
    (markup : Option markup_t) : Option (outcome (Option texture_font_t)) :=
  match markup with
  | none => none                                   -- assert( markup )
  | some markup =>
    if env.WIN32 then
      some { ret := none, self := self,
             trace := [event.fprintf_stderr diagnostic.markup_not_implemented] }
    else
      some (font_manager_get_from_description env self markup.family markup.size
              markup.bold markup.italic)

/-- `font_manager_get_cache` (lines 229-234). -/
def font_manager_get_cache (self : font_manager_t) : Option wbuffer := self.cache

/-- `font_manager_set_cache` (lines 238-250). -/
def font_manager_set_cache (self : font_manager_t) (cache : Option wbuffer) :
    Option (outcome Unit) :=
  match cache with
  | none => none                                   -- assert( cache )
  | some cache =>
    let released := match self.cache with
      | some old => [event.free_cache old]
      | none => []
    match wcsdup (some cache) with
    | none => none
    | some copy => some { ret := (), self := { self with cache := some copy }, trace := released }

/-! ## Client runs -/

/-- One client call on a registry: the registry it leaves and what it did; `none` when the call
does not return. -/
def call.exec (env : environment) (self : font_manager_t) :
    call → Option (font_manager_t × List event)
  | call.get_from_filename filename size =>
    let r := font_manager_get_from_filename env self filename size
    some (r.self, r.trace)
  | call.get_from_description family size bold italic =>
    let r := font_manager_get_from_description env self family size bold italic
    some (r.self, r.trace)
  | call.get_from_markup markup =>
    (font_manager_get_from_markup env self markup).map fun r => (r.self, r.trace)
  | call.set_cache cache =>
    (font_manager_set_cache self cache).map fun r => (r.self, r.trace)

/-- The assumption on the font loader: a font it constructs stores the path and the size it was
given. -/
def LoaderContract (env : environment) : Prop :=
  ∀ atlas filename size font,
    env.texture_font_new atlas filename size = some font →
      font.filename = filename ∧ font.size = size

/-- The registries a client can reach, with the trace of the run: the registry returned by
`font_manager_new`, then any finite sequence of calls that return, each in an environment
whose loader meets its contract. -/
inductive Reachable : font_manager_t → List event → Prop where
  | new (width height depth : Nat) (self : font_manager_t)
      (h : font_manager_new true width height depth = some self) : Reachable self []
  | step (env : environment) (c : call) (self self' : font_manager_t) (tr did : List event)
      (h : Reachable self tr) (henv : LoaderContract env)
      (hc : c.exec env self = some (self', did)) :
      Reachable self' (tr ++ event.enter c :: did)

/-- The fonts targeted by the glyph pre-load requests of a trace, in order. -/
def preload_targets : List event → List texture_font_t
  | [] => []
  | event.texture_font_load_glyphs font _ :: rest => font :: preload_targets rest
  | _ :: rest => preload_targets rest

/-- The loader calls of a trace, in order. -/
def loader_calls : List event → List event
  | [] => []
  | event.texture_font_new atlas filename size result :: rest =>
    event.texture_font_new atlas filename size result :: loader_calls rest
  | _ :: rest => loader_calls rest

/-- The duplicate a returning `font_manager_set_cache` makes, when the event is the entry of
one. -/
def cache_set_by : event → Option wbuffer
  | event.enter (call.set_cache (some w)) => some (wcs w ++ [0])
  | _ => none

/-- The duplicate made by the last `font_manager_set_cache` entered in a trace, if any. -/
def last_set_cache : List event → Option wbuffer
  | [] => none
  | e :: rest =>
    match last_set_cache rest with
    | some w => some w
    | none => cache_set_by e

/-- The cache string current after a trace prefix: the duplicate made by the last
`font_manager_set_cache` entered, a single space before the first one. -/
def current_cache (tr : List event) : wbuffer := (last_set_cache tr).getD [32, 0]

/-- No client call is entered in a list of events. -/
def no_enter (l : List event) : Prop := ∀ c, event.enter c ∉ l

/-- A font with the given path and a size equal to the given one is in the collection. -/
def registered (self : font_manager_t) (filename : c_string) (size : float32) : Prop :=
  ∃ font ∈ self.fonts, font.filename = filename ∧ float_eq font.size size = true

/-- The relation the scan keeps between any two entries: not the same path with equal sizes. -/
def distinct_identity (a b : texture_font_t) : Prop :=
  ¬ (a.filename = b.filename ∧ float_eq a.size b.size = true)

/-- The glyph pre-loads of a trace are timed: each one follows at once the loader call that
created its target and carries the cache string current at that point of the trace. -/
def preloads_timed (tr : List event) : Prop :=
  ∀ pre f c post, tr = pre ++ event.texture_font_load_glyphs f c :: post →
    c = some (current_cache pre) ∧
    ∃ pre' atlas p s, pre = pre' ++ [event.texture_font_new atlas p s (some f)]

/-! ## Sample data -/

/-- The size 12.0. -/
def size12 : float32 := ⟨false, 130, 4194304⟩

/-- The size 14.0. -/
def size14 : float32 := ⟨false, 130, 6291456⟩

/-- A quiet NaN. -/
def sizeNaN : float32 := ⟨false, 255, 4194304⟩

/-- The path `v.ttf`. -/
def valid_ttf : c_string := [118, 46, 116, 116, 102]

/-- The path `m.ttf`. -/
def missing_ttf : c_string := [109, 46, 116, 116, 102]

/-- A process in which `v.ttf` is the only loadable file and fontconfig knows the family `S`
only, which it resolves to `v.ttf` with a record size of 14.0. -/
def sample_env : environment where
  WIN32 := false
  WIN64 := false
  texture_font_new := fun _ filename size =>
    if filename = valid_ttf then some ⟨4096 + size.mantissa.val, filename, size⟩ else none
  FcFontMatch := fun pattern =>
    if pattern.family = [83] then some ⟨some valid_ttf, size14⟩ else none

/-- The same process on a platform that defines `_WIN32`. -/
def sample_env_win : environment := { sample_env with WIN32 := true, WIN64 := true }

/-- A registry as `font_manager_new (512, 512, 1)` returns it. -/
def sample_new : font_manager_t := ⟨⟨512, 512, 1⟩, [], some [32, 0]⟩

/-- The registry after `v.ttf` was loaded at 12.0. -/
def sample_one : font_manager_t :=
  ⟨⟨512, 512, 1⟩, [⟨4096 + 4194304, valid_ttf, size12⟩], some [32, 0]⟩

/-- The registry after `v.ttf` at 12.0, then the cache string `ab`. -/
def sample_two : font_manager_t :=
  ⟨⟨512, 512, 1⟩, [⟨4096 + 4194304, valid_ttf, size12⟩], some [97, 98, 0]⟩

/-- The registry after `v.ttf` at 12.0, the cache string `ab`, then the family `S` at 14.0. -/
def sample_three : font_manager_t :=
  ⟨⟨512, 512, 1⟩,
   [⟨4096 + 4194304, valid_ttf, size12⟩, ⟨4096 + 6291456, valid_ttf, size14⟩],
   some [97, 98, 0]⟩

/-- The trace of the run that leads to `sample_three`. -/
def sample_trace : List event :=
  [event.enter (call.get_from_filename valid_ttf size12),
   event.texture_font_new ⟨512, 512, 1⟩ valid_ttf size12
     (some ⟨4096 + 4194304, valid_ttf, size12⟩),
   event.texture_font_load_glyphs ⟨4096 + 4194304, valid_ttf, size12⟩ (some [32, 0]),
   event.enter (call.set_cache (some [97, 98, 0, 99])),
   event.free_cache [32, 0],
   event.enter (call.get_from_description [83] size14 1 0),
   event.FcFontMatch ⟨size14, 200, 0, [83]⟩ (some ⟨some valid_ttf, size14⟩),
   event.texture_font_new ⟨512, 512, 1⟩ valid_ttf size14
     (some ⟨4096 + 6291456, valid_ttf, size14⟩),
   event.texture_font_load_glyphs ⟨4096 + 6291456, valid_ttf, size14⟩ (some [97, 98, 0]),
   event.free_filename valid_ttf]

/-! ## Basic facts -/

theorem strcmp_eq_zero_iff (a b : c_string) : strcmp a b = 0 ↔ a = b := by
  induction a generalizing b with
  | nil => cases b <;> simp [strcmp]
  | cons x xs ih =>
    cases b with
    | nil => simp [strcmp]
    | cons y ys =>
      by_cases hxy : x = y
      · simp [strcmp, hxy, ih]
      · by_cases hlt : x < y <;> simp [strcmp, hxy, hlt]

theorem font_matches_iff (font : texture_font_t) (filename : c_string) (size : float32) :
    font_matches font filename size = true ↔
      font.filename = filename ∧ float_eq font.size size = true := by
  simp [font_matches, strcmp_eq_zero_iff]

theorem float_eq_self (a : float32) (h : a.isNaN = false) : float_eq a a = true := by
  simp [float_eq, h]

theorem float_eq_not_nan (a b : float32) (h : float_eq a b = true) :
    a.isNaN = false ∧ b.isNaN = false := by
  simp [float_eq] at h
  exact ⟨h.1.1, h.1.2⟩

theorem float_eq_bits (a b : float32) (h : float_eq a b = true) (hz : b.isZero = false) :
    a = b := by
  simp [float_eq, hz] at h
  exact h.2

theorem isPositive_not_nan (a : float32) (h : a.isPositive = true) : a.isNaN = false := by
  simp [float32.isPositive] at h
  exact h.1.2

theorem isPositive_not_zero (a : float32) (h : a.isPositive = true) : a.isZero = false := by
  simp [float32.isPositive] at h
  exact h.2

theorem scan_eq_none_iff (filename : c_string) (size : float32) (fonts : List texture_font_t) :
    font_manager_get_from_filename.scan filename size fonts = none ↔
      ∀ g ∈ fonts, ¬ (g.filename = filename ∧ float_eq g.size size = true) := by
  induction fonts with
  | nil => simp [font_manager_get_from_filename.scan]
  | cons g rest ih =>
    by_cases hg : font_matches g filename size = true
    · have := (font_matches_iff g filename size).1 hg
      simp [font_manager_get_from_filename.scan, hg, this]
    · have hn : ¬ (g.filename = filename ∧ float_eq g.size size = true) :=
        fun h => hg ((font_matches_iff g filename size).2 h)
      simp only [font_manager_get_from_filename.scan, hg, List.mem_cons, forall_eq_or_imp]
      constructor
      · intro h
        exact ⟨hn, ih.1 h⟩
      · intro h
        exact ih.2 h.2

theorem scan_eq_some (filename : c_string) (size : float32) (fonts : List texture_font_t)
    (font : texture_font_t)
    (h : font_manager_get_from_filename.scan filename size fonts = some font) :
    font ∈ fonts ∧ font.filename = filename ∧ float_eq font.size size = true := by
  induction fonts with
  | nil => simp [font_manager_get_from_filename.scan] at h
  | cons g rest ih =>
    by_cases hg : font_matches g filename size = true
    · simp [font_manager_get_from_filename.scan, hg] at h
      subst h
      exact ⟨List.mem_cons_self _ _, (font_matches_iff _ _ _).1 hg⟩
    · simp [font_manager_get_from_filename.scan, hg] at h
      have := ih h
      exact ⟨List.mem_cons_of_mem _ this.1, this.2⟩

theorem scan_first (filename : c_string) (size : float32) (fonts : List texture_font_t)
    (i : Nat) (font : texture_font_t) (hi : vector_get fonts i = some font)
    (hm : font.filename = filename ∧ float_eq font.size size = true)
    (hfirst : ∀ j g, j < i → vector_get fonts j = some g →
      ¬ (g.filename = filename ∧ float_eq g.size size = true)) :
    font_manager_get_from_filename.scan filename size fonts = some font := by
  induction fonts generalizing i with
  | nil => simp [vector_get] at hi
  | cons g rest ih =>
    cases i with
    | zero =>
      simp [vector_get] at hi
      subst hi
      simp [font_manager_get_from_filename.scan, (font_matches_iff _ _ _).2 hm]
    | succ k =>
      have hg : ¬ (font_matches g filename size = true) := fun h =>
        hfirst 0 g (Nat.succ_pos k) (by simp [vector_get]) ((font_matches_iff _ _ _).1 h)
      simp only [font_manager_get_from_filename.scan, hg]
      apply ih k
      · simpa [vector_get] using hi
      · intro j g' hj hg'
        exact hfirst (j + 1) g' (Nat.succ_lt_succ hj) (by simpa [vector_get] using hg')

theorem scan_push_back_self (filename : c_string) (size : float32)
    (fonts : List texture_font_t) (font : texture_font_t)
    (hmiss : font_manager_get_from_filename.scan filename size fonts = none)
    (hm : font.filename = filename ∧ float_eq font.size size = true) :
    font_manager_get_from_filename.scan filename size (vector_push_back fonts font)
      = some font := by
  induction fonts with
  | nil =>
    simp [vector_push_back, font_manager_get_from_filename.scan, (font_matches_iff _ _ _).2 hm]
  | cons g rest ih =>
    by_cases hg : font_matches g filename size = true
    · simp [font_manager_get_from_filename.scan, hg] at hmiss
    · simp only [font_manager_get_from_filename.scan, hg] at hmiss
      have := ih hmiss
      simp only [vector_push_back] at this
      simp [vector_push_back, font_manager_get_from_filename.scan, hg, this]

theorem wcslen_eq (w : wbuffer) (h : 0 ∈ w) : wcslen w = some (wcs w).length := by
  induction w with
  | nil => simp at h
  | cons c cs ih =>
    by_cases hc : c = 0
    · simp [wcslen, wcs, hc]
    · have hmem : 0 ∈ cs := by
        rcases List.mem_cons.1 h with h0 | h0
        · exact absurd h0.symm hc
        · exact h0
      have := ih hmem
      simp [wcs] at this
      simp [wcslen, wcs, hc, this, List.takeWhile_cons]

theorem wcscpy_eq (dest w : wbuffer) (h : 0 ∈ w) (hd : (wcs w).length + 1 ≤ dest.length) :
    wcscpy dest w = some (wcs w ++ 0 :: dest.drop ((wcs w).length + 1)) := by
  induction w generalizing dest with
  | nil => simp at h
  | cons c cs ih =>
    cases dest with
    | nil => simp at hd
    | cons d ds =>
      by_cases hc : c = 0
      · simp [wcscpy, wcs, hc]
      · have hmem : 0 ∈ cs := by
          rcases List.mem_cons.1 h with h0 | h0
          · exact absurd h0.symm hc
          · exact h0
        have hlen : (wcs (c :: cs)).length = (wcs cs).length + 1 := by
          simp [wcs, List.takeWhile_cons, hc]
        have hd2 : (wcs cs).length + 1 ≤ ds.length := by
          rw [hlen] at hd
          simpa using hd
        have := ih ds hmem hd2
        have hw : wcs (c :: cs) = c :: wcs cs := by simp [wcs, List.takeWhile_cons, hc]
        simp [wcscpy, hc, this, hw]

theorem wcsdup_eq (w : wbuffer) (h : 0 ∈ w) : wcsdup (some w) = some (wcs w ++ [0]) := by
  simp [wcsdup, wcslen_eq w h, malloc]
  rw [wcscpy_eq _ w h (by simp)]
  simp

theorem wcs_append_zero (cs rest : List Nat) (h : 0 ∉ cs) : wcs (cs ++ 0 :: rest) = cs := by
  induction cs with
  | nil => simp [wcs]
  | cons c cs ih =>
    have hc : c ≠ 0 := fun hc => h (by simp [hc])
    have hcs : 0 ∉ cs := fun hm => h (List.mem_cons_of_mem _ hm)
    have := ih hcs
    simp only [wcs] at this
    simp only [wcs, List.cons_append, List.takeWhile_cons, hc, ne_eq, not_false_eq_true,
      decide_True, if_true, this]

theorem wcs_dup (w : wbuffer) : wcs (wcs w ++ [0]) = wcs w := by
  apply wcs_append_zero
  intro hm
  have := List.mem_takeWhile_imp hm
  simp at this

theorem sample_env_contract : LoaderContract sample_env := by
  intro atlas filename size font h
  simp only [sample_env] at h
  split at h
  · simp only [Option.some.injEq] at h
    subst h
    exact ⟨rfl, rfl⟩
  · simp at h

/-! ## Lookup by file -/

/-- C3. Failed load is atomic: when no registered font has the path `p` and a size equal to `s`
and the loader fails on `(p, s)`, `font_manager_get_from_filename` returns no font and leaves the
registry as it was (same entries in the same order, same cache string, same atlas); it issues
no glyph pre-load: all it does is the one loader call and the diagnostic. -/
theorem failed_load_is_atomic (env : environment) (self : font_manager_t) (p : c_string)
    (s : float32)
    (hmiss : ¬ registered self p s)
    (hfail : env.texture_font_new self.atlas p s = none) :
    (font_manager_get_from_filename env self p s).ret = none ∧
    (font_manager_get_from_filename env self p s).self = self ∧
    vector_size (font_manager_get_from_filename env self p s).self.fonts
      = vector_size self.fonts ∧
    preload_targets (font_manager_get_from_filename env self p s).trace = [] ∧
    (font_manager_get_from_filename env self p s).trace
      = [event.texture_font_new self.atlas p s none,
         event.fprintf_stderr (diagnostic.unable_to_load p s)] := by
  have hscan : font_manager_get_from_filename.scan p s self.fonts = none := by
    rw [scan_eq_none_iff]
    intro g hg hm
    exact hmiss ⟨g, hg, hm⟩
  simp [font_manager_get_from_filename, hscan, hfail, preload_targets]

theorem failed_load_is_atomic_witness :
    (font_manager_get_from_filename sample_env sample_one missing_ttf size12).ret = none ∧
    (font_manager_get_from_filename sample_env sample_one missing_ttf size12).self
      = sample_one :=
  have h := failed_load_is_atomic sample_env sample_one missing_ttf size12
    (by
      rintro ⟨g, hg, hm⟩
      simp only [sample_one, List.mem_singleton] at hg
      subst hg
      exact absurd hm.1 (by decide))
    (by rfl)
  ⟨h.1, h.2.1⟩

/-- C4. Successful miss appends exactly one entry: when no registered font has the path `p` and
a size equal to `s` and the loader answers the font `f` on `(p, s)`,
`font_manager_get_from_filename` returns `f` and the collection afterwards is the previous one
with `f` appended at the end (earlier entries unchanged and in the same order, one entry more;
atlas and cache string untouched).  On a hit the returned font is the first entry in insertion
order whose path is `p` and whose size equals `s`, and the registry is unchanged. -/
theorem successful_miss_appends_one (env : environment) (self : font_manager_t) (p : c_string)
    (s : float32) :
    (∀ f, ¬ registered self p s → env.texture_font_new self.atlas p s = some f →
      (font_manager_get_from_filename env self p s).ret = some f ∧
      (font_manager_get_from_filename env self p s).self.fonts = self.fonts ++ [f] ∧
      vector_size (font_manager_get_from_filename env self p s).self.fonts
        = vector_size self.fonts + 1 ∧
      (∀ i, i < vector_size self.fonts →
        vector_get (font_manager_get_from_filename env self p s).self.fonts i
          = vector_get self.fonts i) ∧
      vector_get (font_manager_get_from_filename env self p s).self.fonts
        (vector_size self.fonts) = some f ∧
      (font_manager_get_from_filename env self p s).self.atlas = self.atlas ∧
      (font_manager_get_from_filename env self p s).self.cache = self.cache) ∧
    (∀ i g, vector_get self.fonts i = some g →
      (g.filename = p ∧ float_eq g.size s = true) →
      (∀ j h, j < i → vector_get self.fonts j = some h →
        ¬ (h.filename = p ∧ float_eq h.size s = true)) →
      (font_manager_get_from_filename env self p s).ret = some g ∧
      (font_manager_get_from_filename env self p s).self = self) := by
  constructor
  · intro f hmiss hload
    have hscan : font_manager_get_from_filename.scan p s self.fonts = none := by
      rw [scan_eq_none_iff]
      intro g hg hm
      exact hmiss ⟨g, hg, hm⟩
    simp only [font_manager_get_from_filename, hscan, hload, vector_push_back, vector_size,
      vector_get, List.length_append, List.length_singleton, true_and]
    refine ⟨?_, ?_⟩
    · intro i hi
      simp [List.getElem?_append_left hi]
    · simp
  · intro i g hi hm hfirst
    have hscan := scan_first p s self.fonts i g hi hm hfirst
    simp [font_manager_get_from_filename, hscan]

theorem successful_miss_appends_one_witness :
    ((font_manager_get_from_filename sample_env sample_new valid_ttf size12).ret
        = some ⟨4096 + 4194304, valid_ttf, size12⟩ ∧
      (font_manager_get_from_filename sample_env sample_new valid_ttf size12).self.fonts
        = [] ++ [⟨4096 + 4194304, valid_ttf, size12⟩]) ∧
    ((font_manager_get_from_filename sample_env sample_one valid_ttf size12).ret
        = some ⟨4096 + 4194304, valid_ttf, size12⟩ ∧
      (font_manager_get_from_filename sample_env sample_one valid_ttf size12).self
        = sample_one) :=
  have h := successful_miss_appends_one sample_env
  have h1 := (h sample_new valid_ttf size12).1 ⟨4096 + 4194304, valid_ttf, size12⟩
    (by
      rintro ⟨g, hg, _⟩
      simp [sample_new] at hg)
    (by rfl)
  have h2 := (h sample_one valid_ttf size12).2 0 ⟨4096 + 4194304, valid_ttf, size12⟩
    (by rfl) (by decide) (by intro j h hj; omega)
  ⟨⟨h1.1, h1.2.1⟩, h2⟩

/-- C2. Idempotent re-lookup: when the loader succeeds on `(p, s)` (and stores what it is given)
and `s` is a size equal to itself, two calls of `font_manager_get_from_filename (p, s)` in a row
return the same font record, handle included; the second call leaves the registry as the first
left it and does nothing observable, in particular it calls neither the loader nor the glyph
pre-load, whatever the loader would answer by then.  The collection grows by one entry over the
two calls if `(p, s)` was not registered, by none if it was, so by at most one in total. -/
theorem idempotent_relookup (env env2 : environment) (self : font_manager_t) (p : c_string)
    (s : float32)
    (hcontract : LoaderContract env)
    (hs : s.isNaN = false)
    (hload : (env.texture_font_new self.atlas p s).isSome = true) :
    (∃ f,
      (font_manager_get_from_filename env self p s).ret = some f ∧
      (font_manager_get_from_filename env2
        (font_manager_get_from_filename env self p s).self p s).ret = some f) ∧
    (font_manager_get_from_filename env2
      (font_manager_get_from_filename env self p s).self p s).self
      = (font_manager_get_from_filename env self p s).self ∧
    (font_manager_get_from_filename env2
      (font_manager_get_from_filename env self p s).self p s).trace = [] ∧
    (¬ registered self p s →
      vector_size (font_manager_get_from_filename env2
        (font_manager_get_from_filename env self p s).self p s).self.fonts
        = vector_size self.fonts + 1) ∧
    (registered self p s →
      vector_size (font_manager_get_from_filename env2
        (font_manager_get_from_filename env self p s).self p s).self.fonts
        = vector_size self.fonts) ∧
    vector_size (font_manager_get_from_filename env2
      (font_manager_get_from_filename env self p s).self p s).self.fonts
      ≤ vector_size self.fonts + 1 := by
  cases hscan : font_manager_get_from_filename.scan p s self.fonts with
  | some g =>
    have hg := scan_eq_some p s self.fonts g hscan
    have hreg : registered self p s := ⟨g, hg.1, hg.2⟩
    have h1 : font_manager_get_from_filename env self p s = ⟨some g, self, []⟩ := by
      simp [font_manager_get_from_filename, hscan]
    have h2 : font_manager_get_from_filename env2 self p s = ⟨some g, self, []⟩ := by
      simp [font_manager_get_from_filename, hscan]
    rw [h1]
    dsimp only
    rw [h2]
    exact ⟨⟨g, rfl, rfl⟩, rfl, rfl, fun hn => absurd hreg hn, fun _ => rfl, Nat.le_succ _⟩
  | none =>
    have hnreg : ¬ registered self p s := by
      rintro ⟨g, hg, hm⟩
      exact (scan_eq_none_iff p s self.fonts).1 hscan g hg hm
    obtain ⟨f, hf⟩ := Option.isSome_iff_exists.1 hload
    have hstore := hcontract self.atlas p s f hf
    have hm : f.filename = p ∧ float_eq f.size s = true := by
      refine ⟨hstore.1, ?_⟩
      rw [hstore.2]
      exact float_eq_self s hs
    have h1 : font_manager_get_from_filename env self p s
        = ⟨some f, { self with fonts := vector_push_back self.fonts f },
            [event.texture_font_new self.atlas p s (some f),
             event.texture_font_load_glyphs f self.cache]⟩ := by
      simp [font_manager_get_from_filename, hscan, hf]
    have hscan2 := scan_push_back_self p s self.fonts f hscan hm
    have h2 : font_manager_get_from_filename env2
        { self with fonts := vector_push_back self.fonts f } p s
        = ⟨some f, { self with fonts := vector_push_back self.fonts f }, []⟩ := by
      simp [font_manager_get_from_filename, hscan2]
    rw [h1]
    dsimp only
    rw [h2]
    refine ⟨⟨f, rfl, rfl⟩, rfl, rfl, fun _ => ?_, fun hr => absurd hr hnreg, ?_⟩
    · simp [vector_size, vector_push_back]
    · simp [vector_size, vector_push_back]

theorem idempotent_relookup_witness :
    (∃ f,
      (font_manager_get_from_filename sample_env sample_new valid_ttf size12).ret = some f ∧
      (font_manager_get_from_filename sample_env_win
        (font_manager_get_from_filename sample_env sample_new valid_ttf size12).self
        valid_ttf size12).ret = some f) ∧
    vector_size (font_manager_get_from_filename sample_env_win
      (font_manager_get_from_filename sample_env sample_new valid_ttf size12).self
      valid_ttf size12).self.fonts ≤ vector_size sample_new.fonts + 1 :=
  have h := idempotent_relookup sample_env sample_env_win sample_new valid_ttf size12
    sample_env_contract (by rfl) (by rfl)
  ⟨h.1, h.2.2.2.2.2⟩

/-- A size that is not equal to itself is loaded again: on a NaN size the second lookup in a row
misses and, if the loader succeeds, appends a second entry. -/
theorem relookup_nan_loads_again :
    (font_manager_get_from_filename sample_env
      (font_manager_get_from_filename sample_env sample_new valid_ttf sizeNaN).self
      valid_ttf sizeNaN).self.fonts
      = [⟨4096 + 4194304, valid_ttf, sizeNaN⟩, ⟨4096 + 4194304, valid_ttf, sizeNaN⟩] := by
  rfl

/-! ## Lookup by description and by markup -/

theorem loader_calls_append (a b : List event) :
    loader_calls (a ++ b) = loader_calls a ++ loader_calls b := by
  induction a with
  | nil => rfl
  | cons e rest ih => cases e <;> simp [loader_calls, ih]

theorem preload_targets_append (a b : List event) :
    preload_targets (a ++ b) = preload_targets a ++ preload_targets b := by
  induction a with
  | nil => rfl
  | cons e rest ih => cases e <;> simp [preload_targets, ih]

theorem match_description_quiet (env : environment) (self : font_manager_t)
    (family : c_string) (size : float32) (bold italic : Int) :
    loader_calls (font_manager_match_description env self family size bold italic).2 = [] ∧
    preload_targets (font_manager_match_description env self family size bold italic).2 = [] := by
  unfold font_manager_match_description
  split
  · exact ⟨rfl, rfl⟩
  · dsimp only
    split
    · exact ⟨rfl, rfl⟩
    · split <;> exact ⟨rfl, rfl⟩

theorem match_description_no_enter (env : environment) (self : font_manager_t)
    (family : c_string) (size : float32) (bold italic : Int) :
    ∀ c, event.enter c ∉ (font_manager_match_description env self family size bold italic).2 := by
  intro c
  unfold font_manager_match_description
  split
  · simp
  · dsimp only
    split
    · simp
    · split <;> simp

/-- What a lookup by file does, case by case. -/
theorem get_from_filename_cases (env : environment) (self : font_manager_t) (p : c_string)
    (s : float32) :
    (∃ g, g ∈ self.fonts ∧ g.filename = p ∧ float_eq g.size s = true ∧
      font_manager_get_from_filename env self p s = ⟨some g, self, []⟩) ∨
    (¬ registered self p s ∧ ∃ f, env.texture_font_new self.atlas p s = some f ∧
      font_manager_get_from_filename env self p s
        = ⟨some f, { self with fonts := self.fonts ++ [f] },
            [event.texture_font_new self.atlas p s (some f),
             event.texture_font_load_glyphs f self.cache]⟩) ∨
    (¬ registered self p s ∧ env.texture_font_new self.atlas p s = none ∧
      font_manager_get_from_filename env self p s
        = ⟨none, self, [event.texture_font_new self.atlas p s none,
            event.fprintf_stderr (diagnostic.unable_to_load p s)]⟩) := by
  cases hscan : font_manager_get_from_filename.scan p s self.fonts with
  | some g =>
    have hg := scan_eq_some p s self.fonts g hscan
    exact Or.inl ⟨g, hg.1, hg.2.1, hg.2.2, by simp [font_manager_get_from_filename, hscan]⟩
  | none =>
    have hnreg : ¬ registered self p s := by
      rintro ⟨g, hg, hm⟩
      exact (scan_eq_none_iff p s self.fonts).1 hscan g hg hm
    cases hload : env.texture_font_new self.atlas p s with
    | some f =>
      exact Or.inr (Or.inl ⟨hnreg, f, rfl, by
        simp [font_manager_get_from_filename, hscan, hload, vector_push_back]⟩)
    | none =>
      exact Or.inr (Or.inr ⟨hnreg, rfl, by
        simp [font_manager_get_from_filename, hscan, hload]⟩)

/-- What a lookup by description does, case by case: nothing but a diagnostic, or the resolver
followed by the lookup by file of the resolved path at the requested size. -/
theorem get_from_description_cases (env : environment) (self : font_manager_t)
    (family : c_string) (size : float32) (bold italic : Int) :
    (∃ did, loader_calls did = [] ∧ preload_targets did = [] ∧ no_enter did ∧
      font_manager_get_from_description env self family size bold italic
        = ⟨none, self, did⟩) ∨
    (∃ path did, loader_calls did = [] ∧ preload_targets did = [] ∧ no_enter did ∧
      font_manager_get_from_description env self family size bold italic
        = ⟨(font_manager_get_from_filename env self path size).ret,
           (font_manager_get_from_filename env self path size).self,
           did ++ (font_manager_get_from_filename env self path size).trace
             ++ [event.free_filename path]⟩) := by
  unfold font_manager_get_from_description
  by_cases hw : env.WIN32 = true
  · exact Or.inl ⟨[event.fprintf_stderr diagnostic.description_not_implemented], rfl, rfl,
      fun c => by simp, by simp [hw]⟩
  · have hq := match_description_quiet env self family size bold italic
    have hne := match_description_no_enter env self family size bold italic
    rcases hm : font_manager_match_description env self family size bold italic
      with ⟨path, did⟩
    rw [hm] at hq hne
    cases path with
    | none =>
      refine Or.inl ⟨did ++ [event.fprintf_stderr
        (diagnostic.no_font_available family size bold italic)], ?_, ?_, ?_, by simp [hw]⟩
      · rw [loader_calls_append, hq.1]; rfl
      · rw [preload_targets_append, hq.2]; rfl
      · intro c hc
        rcases List.mem_append.1 hc with hc | hc
        · exact hne c hc
        · simp at hc
    | some path =>
      exact Or.inr ⟨path, did, hq.1, hq.2, hne, by simp [hw]⟩

/-- C5. Size fidelity: if `font_manager_get_from_description (family, size, bold, italic)`
returns a font, in any registry and whatever the matching service answers, the font's stored
size is the requested size: the very same value when the font is newly created, a value that
compares equal to it (C `==`) when the font was found registered, and both for every positive
size.  Every loader call of the lookup is given the caller's size. -/
theorem description_size_fidelity (env : environment) (self : font_manager_t)
    (family : c_string) (size : float32) (bold italic : Int) (f : texture_font_t)
    (hcontract : LoaderContract env)
    (hret : (font_manager_get_from_description env self family size bold italic).ret = some f) :
    (f.size = size ∨ float_eq f.size size = true) ∧
    (loader_calls (font_manager_get_from_description env self family size bold italic).trace
        ≠ [] → f.size = size) ∧
    (loader_calls (font_manager_get_from_description env self family size bold italic).trace
        = [] → f ∈ self.fonts ∧ float_eq f.size size = true) ∧
    (size.isNaN = false → float_eq f.size size = true) ∧
    (size.isPositive = true → f.size = size) ∧
    (∀ e ∈ loader_calls
        (font_manager_get_from_description env self family size bold italic).trace,
      ∃ atlas path result, e = event.texture_font_new atlas path size result) := by
  rcases get_from_description_cases env self family size bold italic with
    ⟨did, _, _, _, hd⟩ | ⟨path, did, hl, _, _, hd⟩
  · rw [hd] at hret
    simp at hret
  · rw [hd] at hret ⊢
    dsimp only at hret ⊢
    rcases get_from_filename_cases env self path size with
      ⟨g, hg, _, hgs, hf⟩ | ⟨_, f', hload, hf⟩ | ⟨_, _, hf⟩
    · rw [hf] at hret ⊢
      simp only [Option.some.injEq] at hret
      subst hret
      simp only [List.append_nil, loader_calls_append, hl, loader_calls, List.nil_append]
      refine ⟨Or.inr hgs, fun h => absurd rfl h, fun _ => ⟨hg, hgs⟩, fun _ => hgs, ?_, ?_⟩
      · intro hp
        exact float_eq_bits _ _ hgs (isPositive_not_zero size hp)
      · intro e he
        simp at he
    · rw [hf] at hret ⊢
      simp only [Option.some.injEq] at hret
      subst hret
      have hst := (hcontract self.atlas path size f' hload).2
      simp only [loader_calls_append, hl, loader_calls, List.nil_append]
      refine ⟨Or.inl hst, fun _ => hst, fun h => ?_, fun hn => ?_, fun _ => hst, ?_⟩
      · simp at h
      · rw [hst]
        exact float_eq_self size hn
      · intro e he
        simp only [List.cons_append, List.nil_append, List.mem_singleton] at he
        exact ⟨_, _, _, he⟩
    · rw [hf] at hret
      simp at hret

theorem description_size_fidelity_witness :
    (font_manager_get_from_description sample_env sample_new [83] size12 0 0).ret
      = some ⟨4096 + 4194304, valid_ttf, size12⟩ ∧
    ((⟨4096 + 4194304, valid_ttf, size12⟩ : texture_font_t).size = size12 ∨
      float_eq (⟨4096 + 4194304, valid_ttf, size12⟩ : texture_font_t).size size12 = true) :=
  ⟨by rfl,
   (description_size_fidelity sample_env sample_new [83] size12 0 0
      ⟨4096 + 4194304, valid_ttf, size12⟩ sample_env_contract (by rfl)).1⟩

/-- C6. Unmatched description is atomic: whenever `font_manager_match_description` returns no
path, `font_manager_get_from_description` returns no font, leaves the registry as it was (same
collection, same cache string, same atlas) and calls neither the font loader nor the glyph
pre-load.  Where the matching service is available the resolver returns no path as soon as the
service finds nothing or the matched record has no file field. -/
theorem unmatched_description_is_atomic (env : environment) (self : font_manager_t)
    (family : c_string) (size : float32) (bold italic : Int) :
    ((font_manager_match_description env self family size bold italic).1 = none →
      (font_manager_get_from_description env self family size bold italic).ret = none ∧
      (font_manager_get_from_description env self family size bold italic).self = self ∧
      loader_calls (font_manager_get_from_description env self family size bold italic).trace
        = [] ∧
      preload_targets (font_manager_get_from_description env self family size bold italic).trace
        = []) ∧
    (env.WIN32 = false → env.WIN64 = false →
      (∀ m, env.FcFontMatch
          ⟨size, if bold ≠ 0 then FC_WEIGHT_BOLD else FC_WEIGHT_REGULAR,
           if italic ≠ 0 then FC_SLANT_ITALIC else FC_SLANT_ROMAN, family⟩ = some m →
        m.file = none) →
      (font_manager_match_description env self family size bold italic).1 = none) := by
  constructor
  · intro hnone
    have hq := match_description_quiet env self family size bold italic
    unfold font_manager_get_from_description
    by_cases hw : env.WIN32 = true
    · simp [hw, loader_calls, preload_targets]
    · rcases hm : font_manager_match_description env self family size bold italic
        with ⟨path, did⟩
      rw [hm] at hq hnone
      dsimp only at hnone
      subst hnone
      simp [hw, loader_calls_append, preload_targets_append, hq.1, hq.2, loader_calls,
        preload_targets]
  · intro h32 h64 hfile
    unfold font_manager_match_description
    simp only [h32, h64, Bool.or_self, Bool.false_eq_true, if_false]
    split
    · rfl
    · rename_i m hm
      have := hfile m hm
      split
      · rfl
      · rename_i file hfile2
        rw [this] at hfile2
        cases hfile2

theorem unmatched_description_is_atomic_witness :
    (font_manager_get_from_description sample_env sample_one [84] size12 1 0).ret = none ∧
    (font_manager_get_from_description sample_env sample_one [84] size12 1 0).self
      = sample_one :=
  have h := (unmatched_description_is_atomic sample_env sample_one [84] size12 1 0).1 (by rfl)
  ⟨h.1, h.2.1⟩

/-- C10. Markup lookup is a pure adapter: on a non-null markup `m`,
`font_manager_get_from_markup` returns, and gives the same font-or-none result and the same
resulting registry as `font_manager_get_from_description` on the four fields of `m`, with the
same loader calls and glyph pre-loads; where `_WIN32` is not defined the two calls do exactly the
same, and where it is defined both return no font, leave the registry as it was and call no
collaborator other than the diagnostic stream. -/
theorem markup_lookup_is_adapter (env : environment) (self : font_manager_t) (m : markup_t) :
    ∃ out, font_manager_get_from_markup env self (some m) = some out ∧
      out.ret = (font_manager_get_from_description env self m.family m.size m.bold m.italic).ret ∧
      out.self
        = (font_manager_get_from_description env self m.family m.size m.bold m.italic).self ∧
      loader_calls out.trace = loader_calls
        (font_manager_get_from_description env self m.family m.size m.bold m.italic).trace ∧
      preload_targets out.trace = preload_targets
        (font_manager_get_from_description env self m.family m.size m.bold m.italic).trace ∧
      (env.WIN32 = false →
        out = font_manager_get_from_description env self m.family m.size m.bold m.italic) ∧
      (env.WIN32 = true →
        out.ret = none ∧ out.self = self ∧
        out.trace = [event.fprintf_stderr diagnostic.markup_not_implemented] ∧
        (font_manager_get_from_description env self m.family m.size m.bold m.italic).trace
          = [event.fprintf_stderr diagnostic.description_not_implemented]) := by
  by_cases hw : env.WIN32 = true
  · refine ⟨⟨none, self, [event.fprintf_stderr diagnostic.markup_not_implemented]⟩, ?_, ?_⟩
    · simp [font_manager_get_from_markup, hw]
    · simp [font_manager_get_from_description, hw, loader_calls, preload_targets]
  · refine ⟨font_manager_get_from_description env self m.family m.size m.bold m.italic, ?_, ?_⟩
    · simp [font_manager_get_from_markup, hw]
    · simp [hw]

/-! ## Cache string and destruction -/

theorem font_manager_new_eq (width height depth : Nat) :
    font_manager_new true width height depth
      = some ⟨texture_atlas_new width height depth, vector_new, some [32, 0]⟩ := by
  rfl

theorem set_cache_eq (self : font_manager_t) (w : wbuffer) (hterm : 0 ∈ w) :
    font_manager_set_cache self (some w)
      = some ⟨(), { self with cache := some (wcs w ++ [0]) },
          match self.cache with
          | some old => [event.free_cache old]
          | none => []⟩ := by
  simp [font_manager_set_cache, wcsdup_eq w hterm]

/-- C8. Cache-string round trip: for every registry and every terminated wide string `w`,
`font_manager_set_cache (registry, w)` returns, and afterwards `font_manager_get_cache` yields a
buffer of its own holding the characters of `w` up to its terminator followed by a terminator
(so `w` itself when `w` ends at its terminator); the font collection and the atlas are those of
before and the only thing done is the release of the previous buffer.  On a registry fresh from
`font_manager_new` the cache string is the single space. -/
theorem cache_string_round_trip (self : font_manager_t) (w : wbuffer) (hterm : 0 ∈ w) :
    (∃ out, font_manager_set_cache self (some w) = some out ∧
      font_manager_get_cache out.self = some (wcs w ++ [0]) ∧
      (∀ c, font_manager_get_cache out.self = some c →
        wcs c = wcs w ∧ wcslen c = wcslen w ∧ c.length = (wcs w).length + 1) ∧
      (∀ cs, w = cs ++ [0] → 0 ∉ cs → font_manager_get_cache out.self = some w) ∧
      out.self.fonts = self.fonts ∧
      out.self.atlas = self.atlas ∧
      (∀ old, self.cache = some old → out.trace = [event.free_cache old]) ∧
      (self.cache = none → out.trace = [])) ∧
    (∀ width height depth, ∃ fresh,
      font_manager_new true width height depth = some fresh ∧
      font_manager_get_cache fresh = some [32, 0] ∧
      fresh.fonts = [] ∧
      wcs [32, 0] = [32]) := by
  constructor
  · refine ⟨_, set_cache_eq self w hterm, rfl, ?_, ?_, rfl, rfl, ?_, ?_⟩
    · intro c hc
      simp only [font_manager_get_cache, Option.some.injEq] at hc
      subst hc
      refine ⟨wcs_dup w, ?_, by simp⟩
      rw [wcslen_eq _ (by simp), wcslen_eq w hterm, wcs_dup]
    · intro cs hw hcs
      simp only [font_manager_get_cache]
      rw [hw, wcs_append_zero cs [] hcs]
    · intro old hold
      simp [hold]
    · intro hnone
      simp [hnone]
  · intro width height depth
    exact ⟨_, font_manager_new_eq width height depth, rfl, rfl, by decide⟩

theorem cache_string_round_trip_witness :
    ∃ out, font_manager_set_cache sample_one (some [97, 98, 0, 99]) = some out ∧
      font_manager_get_cache out.self = some (wcs [97, 98, 0, 99] ++ [0]) :=
  have h := (cache_string_round_trip sample_one [97, 98, 0, 99] (by decide)).1
  h.elim fun out hout => ⟨out, hout.1, hout.2.1⟩

/-- C9. Destroy releases every owned resource: on a registry whose collection holds
`f1 .. fn`, the releases of `font_manager_delete` are, in this order, the destructor of each of
`f1 .. fn` and the release of the collection's storage, then the atlas, then the cache-string
buffer if there is one, then the registry record; each of these occurs once (a font's
destructor as many times as the font has entries). -/
theorem delete_releases_everything (self : font_manager_t) :
    font_manager_delete self
      = self.fonts.map event.texture_font_delete
        ++ [event.free_vector self.fonts, event.texture_atlas_delete self.atlas]
        ++ (match self.cache with
            | some cache => [event.free_cache cache]
            | none => [])
        ++ [event.free_self] ∧
    (∀ i f, vector_get self.fonts i = some f →
      (font_manager_delete self).get? i = some (event.texture_font_delete f)) ∧
    (font_manager_delete self).get? (vector_size self.fonts)
      = some (event.free_vector self.fonts) ∧
    (font_manager_delete self).get? (vector_size self.fonts + 1)
      = some (event.texture_atlas_delete self.atlas) ∧
    (∀ cache, self.cache = some cache →
      (font_manager_delete self).get? (vector_size self.fonts + 2)
        = some (event.free_cache cache) ∧
      (font_manager_delete self).get? (vector_size self.fonts + 3) = some event.free_self ∧
      (font_manager_delete self).length = vector_size self.fonts + 4) ∧
    (self.cache = none →
      (font_manager_delete self).get? (vector_size self.fonts + 2) = some event.free_self ∧
      (font_manager_delete self).length = vector_size self.fonts + 3) ∧
    (∀ f, (font_manager_delete self).count (event.texture_font_delete f)
      = self.fonts.count f) := by
  have hshape : font_manager_delete self
      = self.fonts.map event.texture_font_delete
        ++ (event.free_vector self.fonts :: event.texture_atlas_delete self.atlas
            :: ((match self.cache with
                | some cache => [event.free_cache cache]
                | none => []) ++ [event.free_self])) := by
    simp [font_manager_delete, vector_delete]
  have hlen : (self.fonts.map event.texture_font_delete).length = self.fonts.length := by simp
  refine ⟨by simp [font_manager_delete, vector_delete], ?_, ?_, ?_, ?_, ?_, ?_⟩
  · intro i f hi
    simp only [vector_get] at hi
    have hlt : i < self.fonts.length := by
      by_contra hge
      rw [List.get?_eq_none.2 (Nat.le_of_not_lt hge)] at hi
      cases hi
    rw [hshape, List.get?_eq_getElem?, List.getElem?_append_left (by rw [hlen]; exact hlt)]
    rw [List.get?_eq_getElem?] at hi
    simp [List.getElem?_map, hi]
  · rw [hshape, List.get?_eq_getElem?, List.getElem?_append_right (by simp [vector_size])]
    simp [vector_size]
  · rw [hshape, List.get?_eq_getElem?, List.getElem?_append_right (by simp [vector_size])]
    simp [vector_size]
  · intro cache hc
    rw [hshape, hc]
    refine ⟨?_, ?_, by simp [vector_size]⟩
    · rw [List.get?_eq_getElem?, List.getElem?_append_right (by simp [vector_size])]
      simp [vector_size]
    · rw [List.get?_eq_getElem?, List.getElem?_append_right (by simp [vector_size])]
      simp [vector_size]
  · intro hc
    rw [hshape, hc]
    refine ⟨?_, by simp [vector_size]⟩
    rw [List.get?_eq_getElem?, List.getElem?_append_right (by simp [vector_size])]
    simp [vector_size]
  · intro f
    rw [hshape, List.count_append]
    have h1 : (self.fonts.map event.texture_font_delete).count (event.texture_font_delete f)
        = self.fonts.count f := by
      induction self.fonts with
      | nil => rfl
      | cons g rest ih =>
        by_cases hg : g = f
        · simp [hg, ih]
        · have : event.texture_font_delete g ≠ event.texture_font_delete f := by
            intro h
            injection h with h
            exact hg h
          simp only [List.map_cons, List.count_cons, ih]
          simp [hg, this]
    rw [h1]
    cases self.cache <;> simp [List.count_cons]

/-! ## Client runs: invariants -/

theorem float_eq_comm (a b : float32) : float_eq a b = float_eq b a := by
  simp only [float_eq]
  by_cases h : a = b
  · subst h; rfl
  · have h2 : ¬ b = a := fun hb => h hb.symm
    simp only [h, h2, decide_False, Bool.or_false]
    cases a.isNaN <;> cases b.isNaN <;> cases a.isZero <;> cases b.isZero <;> rfl

theorem wcslen_some_mem (w : wbuffer) (n : Nat) (h : wcslen w = some n) : 0 ∈ w := by
  induction w generalizing n with
  | nil => simp [wcslen] at h
  | cons c cs ih =>
    by_cases hc : c = 0
    · simp [hc]
    · simp only [wcslen, hc, if_false, Option.map_eq_some'] at h
      obtain ⟨k, hk, _⟩ := h
      exact List.mem_cons_of_mem _ (ih k hk)

theorem set_cache_some (self : font_manager_t) (w : Option wbuffer) (out : outcome Unit)
    (h : font_manager_set_cache self w = some out) :
    ∃ buf, w = some buf ∧ 0 ∈ buf ∧
      out.self = { self with cache := some (wcs buf ++ [0]) } ∧
      preload_targets out.trace = [] ∧ (∀ c, event.enter c ∉ out.trace) := by
  cases w with
  | none => simp [font_manager_set_cache] at h
  | some buf =>
    have hterm : 0 ∈ buf := by
      cases hl : wcslen buf with
      | none => simp [font_manager_set_cache, wcsdup, hl] at h
      | some n => exact wcslen_some_mem buf n hl
    rw [set_cache_eq self buf hterm] at h
    simp only [Option.some.injEq] at h
    subst h
    refine ⟨buf, rfl, hterm, rfl, ?_, ?_⟩
    · cases self.cache <;> rfl
    · intro c
      cases self.cache <;> simp

theorem last_set_cache_append (a b : List event) :
    last_set_cache (a ++ b)
      = match last_set_cache b with
        | some w => some w
        | none => last_set_cache a := by
  induction a with
  | nil =>
    have hnil : last_set_cache [] = none := rfl
    rw [List.nil_append, hnil]
    cases last_set_cache b <;> rfl
  | cons e rest ih =>
    have hstep : last_set_cache (e :: (rest ++ b))
        = match last_set_cache (rest ++ b) with
          | some w => some w
          | none => cache_set_by e := rfl
    have hstep2 : last_set_cache (e :: rest)
        = match last_set_cache rest with
          | some w => some w
          | none => cache_set_by e := rfl
    rw [List.cons_append, hstep, ih, hstep2]
    cases last_set_cache b <;> rfl

theorem last_set_cache_no_enter (l : List event) (h : no_enter l) : last_set_cache l = none := by
  induction l with
  | nil => rfl
  | cons e rest ih =>
    have hrest : no_enter rest := fun c hc => h c (List.mem_cons_of_mem _ hc)
    have he : ∀ c, e ≠ event.enter c := fun c hc => h c (by simp [hc])
    simp only [last_set_cache, ih hrest]
    cases e with
    | enter c => exact absurd rfl (he c)
    | _ => rfl

/-- What one client call that returns does: either it leaves the collection alone and issues no
glyph pre-load, or it appends one font, created by the loader for a pair that was not
registered, and pre-loads it right after with the registry's cache string. -/
theorem exec_cases (env : environment) (self self' : font_manager_t) (c : call)
    (did : List event) (hc : c.exec env self = some (self', did)) :
    no_enter did ∧
    ((self'.fonts = self.fonts ∧ self'.atlas = self.atlas ∧ preload_targets did = [] ∧
        ((self'.cache = self.cache ∧ ∀ w, c ≠ call.set_cache w) ∨
          ∃ w, c = call.set_cache (some w) ∧ self'.cache = some (wcs w ++ [0]))) ∨
      (∃ pre post p s f,
        did = pre ++ event.texture_font_new self.atlas p s (some f)
          :: event.texture_font_load_glyphs f self.cache :: post ∧
        preload_targets pre = [] ∧ preload_targets post = [] ∧
        self' = { self with fonts := self.fonts ++ [f] } ∧
        ¬ registered self p s ∧ env.texture_font_new self.atlas p s = some f ∧
        ∀ w, c ≠ call.set_cache w)) := by
  have file : ∀ p s self' did,
      ((font_manager_get_from_filename env self p s).self,
        (font_manager_get_from_filename env self p s).trace) = (self', did) →
      no_enter did ∧
      ((self'.fonts = self.fonts ∧ self'.atlas = self.atlas ∧ preload_targets did = [] ∧
          self'.cache = self.cache) ∨
        (∃ pre post p s f,
          did = pre ++ event.texture_font_new self.atlas p s (some f)
            :: event.texture_font_load_glyphs f self.cache :: post ∧
          preload_targets pre = [] ∧ preload_targets post = [] ∧
          self' = { self with fonts := self.fonts ++ [f] } ∧
          ¬ registered self p s ∧ env.texture_font_new self.atlas p s = some f)) := by
    intro p s self' did h
    rcases get_from_filename_cases env self p s with
      ⟨g, _, _, _, hf⟩ | ⟨hn, f, hload, hf⟩ | ⟨_, _, hf⟩
    · rw [hf] at h
      simp only [Prod.mk.injEq] at h
      obtain ⟨h1, h2⟩ := h
      subst h1 h2
      exact ⟨fun c => by simp, Or.inl ⟨rfl, rfl, rfl, rfl⟩⟩
    · rw [hf] at h
      simp only [Prod.mk.injEq] at h
      obtain ⟨h1, h2⟩ := h
      subst h1 h2
      exact ⟨fun c => by simp, Or.inr ⟨[], [], p, s, f, rfl, rfl, rfl, rfl, hn, hload⟩⟩
    · rw [hf] at h
      simp only [Prod.mk.injEq] at h
      obtain ⟨h1, h2⟩ := h
      subst h1 h2
      exact ⟨fun c => by simp, Or.inl ⟨rfl, rfl, rfl, rfl⟩⟩
  have descr : ∀ family size bold italic self' did,
      ((font_manager_get_from_description env self family size bold italic).self,
        (font_manager_get_from_description env self family size bold italic).trace)
        = (self', did) →
      no_enter did ∧
      ((self'.fonts = self.fonts ∧ self'.atlas = self.atlas ∧ preload_targets did = [] ∧
          self'.cache = self.cache) ∨
        (∃ pre post p s f,
          did = pre ++ event.texture_font_new self.atlas p s (some f)
            :: event.texture_font_load_glyphs f self.cache :: post ∧
          preload_targets pre = [] ∧ preload_targets post = [] ∧
          self' = { self with fonts := self.fonts ++ [f] } ∧
          ¬ registered self p s ∧ env.texture_font_new self.atlas p s = some f)) := by
    intro family size bold italic self' did h
    rcases get_from_description_cases env self family size bold italic with
      ⟨d0, _, hp0, hn0, hd⟩ | ⟨path, d0, _, hp0, hn0, hd⟩
    · rw [hd] at h
      simp only [Prod.mk.injEq] at h
      obtain ⟨h1, h2⟩ := h
      subst h1 h2
      exact ⟨hn0, Or.inl ⟨rfl, rfl, hp0, rfl⟩⟩
    · rw [hd] at h
      simp only [Prod.mk.injEq] at h
      obtain ⟨h1, h2⟩ := h
      obtain ⟨hne2, hcase⟩ := file path size _ _ rfl
      subst h1 h2
      refine ⟨fun c hc => ?_, ?_⟩
      · rcases List.mem_append.1 hc with hc | hc
        · rcases List.mem_append.1 hc with hc | hc
          · exact hn0 c hc
          · exact hne2 c hc
        · simp at hc
      · rcases hcase with ⟨h1, h2, h3, h4⟩ | ⟨pre, post, p, s, f, hd, hp1, hp2, hs, hn, hl⟩
        · refine Or.inl ⟨h1, h2, ?_, h4⟩
          rw [preload_targets_append, preload_targets_append, hp0, h3]; rfl
        · refine Or.inr ⟨d0 ++ pre, post ++ [event.free_filename path], p, s, f, ?_, ?_, ?_,
            hs, hn, hl⟩
          · rw [hd]; simp
          · rw [preload_targets_append, hp0, hp1]; rfl
          · rw [preload_targets_append, hp2]; rfl
  cases c with
  | get_from_filename p s =>
    simp only [call.exec, Option.some.injEq] at hc
    obtain ⟨hne, h⟩ := file p s self' did hc
    refine ⟨hne, ?_⟩
    rcases h with ⟨h1, h2, h3, h4⟩ | ⟨pre, post, p, s, f, h⟩
    · exact Or.inl ⟨h1, h2, h3, Or.inl ⟨h4, fun w hw => by cases hw⟩⟩
    · exact Or.inr ⟨pre, post, p, s, f, h.1, h.2.1, h.2.2.1, h.2.2.2.1, h.2.2.2.2.1,
        h.2.2.2.2.2, fun w hw => by cases hw⟩
  | get_from_description family size bold italic =>
    simp only [call.exec, Option.some.injEq] at hc
    obtain ⟨hne, h⟩ := descr family size bold italic self' did hc
    refine ⟨hne, ?_⟩
    rcases h with ⟨h1, h2, h3, h4⟩ | ⟨pre, post, p, s, f, h⟩
    · exact Or.inl ⟨h1, h2, h3, Or.inl ⟨h4, fun w hw => by cases hw⟩⟩
    · exact Or.inr ⟨pre, post, p, s, f, h.1, h.2.1, h.2.2.1, h.2.2.2.1, h.2.2.2.2.1,
        h.2.2.2.2.2, fun w hw => by cases hw⟩
  | get_from_markup markup =>
    cases markup with
    | none => simp [call.exec, font_manager_get_from_markup] at hc
    | some m =>
      have hres : no_enter did ∧
          ((self'.fonts = self.fonts ∧ self'.atlas = self.atlas ∧ preload_targets did = [] ∧
              self'.cache = self.cache) ∨
            (∃ pre post p s f,
              did = pre ++ event.texture_font_new self.atlas p s (some f)
                :: event.texture_font_load_glyphs f self.cache :: post ∧
              preload_targets pre = [] ∧ preload_targets post = [] ∧
              self' = { self with fonts := self.fonts ++ [f] } ∧
              ¬ registered self p s ∧ env.texture_font_new self.atlas p s = some f)) := by
        by_cases hw : env.WIN32 = true
        · simp only [call.exec, font_manager_get_from_markup, hw, if_true, Option.map_some',
            Option.some.injEq, Prod.mk.injEq] at hc
          obtain ⟨h1, h2⟩ := hc
          subst h1 h2
          exact ⟨fun c => by simp, Or.inl ⟨rfl, rfl, rfl, rfl⟩⟩
        · have hw2 : env.WIN32 = false := by simpa using hw
          simp only [call.exec, font_manager_get_from_markup, hw2, Bool.false_eq_true, if_false,
            Option.map_some', Option.some.injEq] at hc
          exact descr m.family m.size m.bold m.italic self' did hc
      obtain ⟨hne, h⟩ := hres
      refine ⟨hne, ?_⟩
      rcases h with ⟨h1, h2, h3, h4⟩ | ⟨pre, post, p, s, f, h⟩
      · exact Or.inl ⟨h1, h2, h3, Or.inl ⟨h4, fun w hw => by cases hw⟩⟩
      · exact Or.inr ⟨pre, post, p, s, f, h.1, h.2.1, h.2.2.1, h.2.2.2.1, h.2.2.2.2.1,
          h.2.2.2.2.2, fun w hw => by cases hw⟩
  | set_cache w =>
    simp only [call.exec, Option.map_eq_some'] at hc
    obtain ⟨out, hout, hpair⟩ := hc
    simp only [Prod.mk.injEq] at hpair
    obtain ⟨h1, h2⟩ := hpair
    obtain ⟨buf, hw, _, hself, hpre, hne⟩ := set_cache_some self w out hout
    subst h1 h2
    refine ⟨hne, Or.inl ⟨?_, ?_, hpre, Or.inr ⟨buf, by rw [hw], ?_⟩⟩⟩
    · rw [hself]
    · rw [hself]
    · rw [hself]

theorem preload_targets_cons_nil (x : event) (l : List event)
    (h : preload_targets (x :: l) = []) :
    (∀ f c, x ≠ event.texture_font_load_glyphs f c) ∧ preload_targets l = [] := by
  cases x <;> simp_all [preload_targets]

theorem no_load_of_preload_targets_nil (l pre post : List event) (f : texture_font_t)
    (c : Option wbuffer) (h : preload_targets l = [])
    (hl : l = pre ++ event.texture_font_load_glyphs f c :: post) : False := by
  rw [hl, preload_targets_append] at h
  simp [preload_targets] at h

theorem unique_load (a q pre post : List event) (f0 f : texture_font_t)
    (c0 c : Option wbuffer)
    (ha : preload_targets a = []) (hq : preload_targets q = [])
    (h : a ++ event.texture_font_load_glyphs f0 c0 :: q
      = pre ++ event.texture_font_load_glyphs f c :: post) :
    pre = a ∧ f = f0 ∧ c = c0 := by
  induction a generalizing pre with
  | nil =>
    cases pre with
    | nil =>
      simp only [List.nil_append, List.cons.injEq, event.texture_font_load_glyphs.injEq] at h
      exact ⟨rfl, h.1.1.symm, h.1.2.symm⟩
    | cons y pre' =>
      simp only [List.nil_append, List.cons_append, List.cons.injEq] at h
      exact (no_load_of_preload_targets_nil q pre' post f c hq h.2).elim
  | cons x a' ih =>
    obtain ⟨hx, ha'⟩ := preload_targets_cons_nil x a' ha
    cases pre with
    | nil =>
      simp only [List.nil_append, List.cons_append, List.cons.injEq] at h
      exact absurd h.1 (hx f c)
    | cons y pre' =>
      simp only [List.cons_append, List.cons.injEq] at h
      obtain ⟨h1, h2, h3⟩ := ih pre' ha' h.2
      exact ⟨by rw [h.1, h1], h2, h3⟩

theorem preload_targets_step (tr did : List event) (c : call) :
    preload_targets (tr ++ event.enter c :: did) = preload_targets tr ++ preload_targets did := by
  rw [preload_targets_append]
  rfl

theorem last_set_cache_step (tr did : List event) (c : call) (hne : no_enter did) :
    last_set_cache (tr ++ event.enter c :: did)
      = match cache_set_by (event.enter c) with
        | some w => some w
        | none => last_set_cache tr := by
  have h1 : last_set_cache (event.enter c :: did) = cache_set_by (event.enter c) := by
    have hstep : last_set_cache (event.enter c :: did)
        = match last_set_cache did with
          | some w => some w
          | none => cache_set_by (event.enter c) := rfl
    rw [hstep, last_set_cache_no_enter did hne]
  rw [last_set_cache_append, h1]

theorem cache_set_by_other (c : call) (h : ∀ w, c ≠ call.set_cache w) :
    cache_set_by (event.enter c) = none := by
  cases c with
  | set_cache w => exact absurd rfl (h w)
  | _ => rfl

/-- The invariants of the registries a client can reach. -/
theorem reachable_invariants (self : font_manager_t) (tr : List event)
    (h : Reachable self tr) :
    self.fonts.Pairwise distinct_identity ∧
    preload_targets tr = self.fonts ∧
    self.cache = some (current_cache tr) ∧
    preloads_timed tr := by
  induction h with
  | new width height depth self hnew =>
    rw [font_manager_new_eq] at hnew
    simp only [Option.some.injEq] at hnew
    subst hnew
    refine ⟨List.Pairwise.nil, rfl, rfl, ?_⟩
    intro pre f c post hsplit
    cases pre <;> simp at hsplit
  | step env c self self' tr did _ henv hc ih =>
    obtain ⟨hpair, htargets, hcache, htimed⟩ := ih
    obtain ⟨hne, hcase⟩ := exec_cases env self self' c did hc
    rcases hcase with
      ⟨hfonts, _, hquiet, hcc⟩ | ⟨p0, q0, p, s, f0, hdid, hp0, hq0, hself, hnreg, hload, hnot⟩
    · refine ⟨by rw [hfonts]; exact hpair, ?_, ?_, ?_⟩
      · rw [preload_targets_step, hquiet, htargets, hfonts, List.append_nil]
      · simp only [current_cache]
        rw [last_set_cache_step tr did c hne]
        rcases hcc with ⟨hsame, hnot⟩ | ⟨w, hw, hnewc⟩
        · rw [cache_set_by_other c hnot, hsame, hcache]
          rfl
        · rw [hw, hnewc]
          rfl
      · intro pre f cc post hsplit
        rcases List.append_eq_append_iff.1 hsplit with ⟨a', _, ha'⟩ | ⟨c', hc', hc''⟩
        · cases a' with
          | nil => simp at ha'
          | cons y a'' =>
            simp only [List.cons_append, List.cons.injEq] at ha'
            exact (no_load_of_preload_targets_nil did a'' post f cc hquiet ha'.2).elim
        · cases c' with
          | nil => simp at hc''
          | cons y c'' =>
            simp only [List.cons_append, List.cons.injEq] at hc''
            rw [← hc''.1] at hc'
            exact htimed pre f cc c'' hc'
    · have hst := henv self.atlas p s f0 hload
      refine ⟨?_, ?_, ?_, ?_⟩
      · rw [hself]
        refine List.pairwise_append.2 ⟨hpair, List.pairwise_singleton _ _, ?_⟩
        intro a ha b hb hab
        simp only [List.mem_singleton] at hb
        subst hb
        rw [hst.1, hst.2] at hab
        exact hnreg ⟨a, ha, hab⟩
      · rw [preload_targets_step, hdid, preload_targets_append, hp0, htargets, hself]
        simp [preload_targets, hq0]
      · simp only [current_cache]
        rw [last_set_cache_step tr did c hne, cache_set_by_other c hnot, hself]
        exact hcache
      · intro pre f cc post hsplit
        rcases List.append_eq_append_iff.1 hsplit with ⟨a', hpre, ha'⟩ | ⟨c', hc', hc''⟩
        · cases a' with
          | nil => simp at ha'
          | cons y a'' =>
            simp only [List.cons_append, List.cons.injEq] at ha'
            obtain ⟨hy, hrest⟩ := ha'
            rw [hdid] at hrest
            have hrest2 : (p0 ++ [event.texture_font_new self.atlas p s (some f0)])
                ++ event.texture_font_load_glyphs f0 self.cache :: q0
                = a'' ++ event.texture_font_load_glyphs f cc :: post := by
              rw [← hrest]; simp
            have hpa : preload_targets
                (p0 ++ [event.texture_font_new self.atlas p s (some f0)]) = [] := by
              rw [preload_targets_append, hp0]; rfl
            obtain ⟨h1, h2, h3⟩ := unique_load _ q0 a'' post f0 f self.cache cc hpa hq0 hrest2
            subst h1 h2 h3
            refine ⟨?_, tr ++ event.enter c :: p0, self.atlas, p, s, ?_⟩
            · rw [hcache, hpre, ← hy]
              simp only [current_cache]
              rw [last_set_cache_step tr _ c, cache_set_by_other c hnot]
              intro c1 hc1
              apply hne c1
              rw [hdid]
              rcases List.mem_append.1 hc1 with hc1 | hc1
              · exact List.mem_append_left _ hc1
              · simp at hc1
            · rw [hpre, ← hy]; simp
        · cases c' with
          | nil => simp at hc''
          | cons y c'' =>
            simp only [List.cons_append, List.cons.injEq] at hc''
            rw [← hc''.1] at hc'
            exact htimed pre f cc c'' hc'

theorem last_set_cache_no_set (l : List event)
    (h : ∀ w, event.enter (call.set_cache w) ∉ l) : last_set_cache l = none := by
  induction l with
  | nil => rfl
  | cons e rest ih =>
    have hrest : ∀ w, event.enter (call.set_cache w) ∉ rest :=
      fun w hw => h w (List.mem_cons_of_mem _ hw)
    have hstep : last_set_cache (e :: rest)
        = match last_set_cache rest with
          | some w => some w
          | none => cache_set_by e := rfl
    rw [hstep, ih hrest]
    cases e with
    | enter c =>
      cases c with
      | set_cache w => exact absurd (List.mem_cons_self _ _) (h w)
      | _ => rfl
    | _ => rfl

theorem nodup_of_distinct_identity (fonts : List texture_font_t)
    (hpair : fonts.Pairwise distinct_identity)
    (hnan : ∀ f ∈ fonts, f.size.isNaN = false) : fonts.Nodup := by
  refine List.Pairwise.imp_of_mem ?_ hpair
  intro a b ha _ hab heq
  apply hab
  rw [← heq]
  exact ⟨rfl, float_eq_self a.size (hnan a ha)⟩

/-! ## Sample run -/

theorem sample_reachable : Reachable sample_three sample_trace :=
  Reachable.step sample_env (call.get_from_description [83] size14 1 0) sample_two sample_three
    _ _
    (Reachable.step sample_env (call.set_cache (some [97, 98, 0, 99])) sample_one sample_two
      _ _
      (Reachable.step sample_env (call.get_from_filename valid_ttf size12) sample_new sample_one
        [] _ (Reachable.new 512 512 1 sample_new rfl) sample_env_contract rfl)
      sample_env_contract rfl)
    sample_env_contract rfl

/-! ## Uniqueness and pre-load timing -/

/-- C1. Uniqueness invariant: in every registry reached from `font_manager_new` by a finite
sequence of `font_manager_get_from_filename`, `font_manager_get_from_description`,
`font_manager_get_from_markup` and `font_manager_set_cache` calls, with a loader that stores
the path and size it is given, no two entries at different positions have byte-equal filenames
(`strcmp` zero) and equal sizes (C `==`); and when the stored sizes are equal to themselves (no
NaN), no two entries at different positions hold the same (filename, size) pair. -/
theorem registry_entries_unique (self : font_manager_t) (tr : List event)
    (h : Reachable self tr) :
    (∀ i j fi fj, i ≠ j → vector_get self.fonts i = some fi → vector_get self.fonts j = some fj →
      ¬ (strcmp fi.filename fj.filename = 0 ∧ float_eq fi.size fj.size = true)) ∧
    ((∀ f ∈ self.fonts, f.size.isNaN = false) →
      ∀ i j fi fj, i ≠ j → vector_get self.fonts i = some fi →
        vector_get self.fonts j = some fj →
        ¬ (fi.filename = fj.filename ∧ fi.size = fj.size)) := by
  have hpair := (reachable_invariants self tr h).1
  have key : ∀ i j fi fj, i ≠ j → vector_get self.fonts i = some fi →
      vector_get self.fonts j = some fj →
      ¬ (fi.filename = fj.filename ∧ float_eq fi.size fj.size = true) := by
    intro i j fi fj hij hi hj
    simp only [vector_get, List.get?_eq_getElem?] at hi hj
    obtain ⟨hil, hie⟩ := List.getElem?_eq_some.1 hi
    obtain ⟨hjl, hje⟩ := List.getElem?_eq_some.1 hj
    rcases Nat.lt_or_gt_of_ne hij with hlt | hgt
    · have := List.pairwise_iff_getElem.1 hpair i j hil hjl hlt
      rw [hie, hje] at this
      exact this
    · have := List.pairwise_iff_getElem.1 hpair j i hjl hil hgt
      rw [hie, hje] at this
      intro hab
      exact this ⟨hab.1.symm, by rw [float_eq_comm]; exact hab.2⟩
  refine ⟨?_, ?_⟩
  · intro i j fi fj hij hi hj hab
    exact key i j fi fj hij hi hj ⟨(strcmp_eq_zero_iff _ _).1 hab.1, hab.2⟩
  · intro hnan i j fi fj hij hi hj hab
    apply key i j fi fj hij hi hj
    refine ⟨hab.1, ?_⟩
    have hmem : fi ∈ self.fonts := by
      simp only [vector_get] at hi
      exact List.get?_mem hi
    rw [← hab.2]
    exact float_eq_self fi.size (hnan fi hmem)

theorem registry_entries_unique_witness :
    ¬ (strcmp (⟨4096 + 4194304, valid_ttf, size12⟩ : texture_font_t).filename
          (⟨4096 + 6291456, valid_ttf, size14⟩ : texture_font_t).filename = 0 ∧
        float_eq (⟨4096 + 4194304, valid_ttf, size12⟩ : texture_font_t).size
          (⟨4096 + 6291456, valid_ttf, size14⟩ : texture_font_t).size = true) ∧
    ¬ ((⟨4096 + 4194304, valid_ttf, size12⟩ : texture_font_t).filename
          = (⟨4096 + 6291456, valid_ttf, size14⟩ : texture_font_t).filename ∧
        (⟨4096 + 4194304, valid_ttf, size12⟩ : texture_font_t).size
          = (⟨4096 + 6291456, valid_ttf, size14⟩ : texture_font_t).size) :=
  have h := registry_entries_unique sample_three sample_trace sample_reachable
  ⟨h.1 0 1 _ _ (by decide) rfl rfl,
   h.2 (by decide) 0 1 _ _ (by decide) rfl rfl⟩

/-- C7. Cache-string pre-load timing: along every run from `font_manager_new`, the glyph
pre-load requests of the trace are, in order, one for each font of the collection; each request
follows at once the loader call that created its target and its argument is the cache string
current at that point (the duplicate made by the last `font_manager_set_cache` before it, the
single space if there was none).  When the stored sizes are equal to themselves every font of
the collection is the target of exactly one request.  From any reached registry a call
pre-loads exactly the fonts it appends: `font_manager_set_cache` pre-loads nothing and leaves
the collection alone, and a lookup by file that finds its font registered does nothing. -/
theorem cache_preload_timing (self : font_manager_t) (tr : List event)
    (h : Reachable self tr) :
    preload_targets tr = self.fonts ∧
    (∀ pre f c post, tr = pre ++ event.texture_font_load_glyphs f c :: post →
      c = some (current_cache pre) ∧
      ∃ pre' atlas p s, pre = pre' ++ [event.texture_font_new atlas p s (some f)]) ∧
    (∀ pre f c post, tr = pre ++ event.texture_font_load_glyphs f c :: post →
      (∀ w, event.enter (call.set_cache w) ∉ pre) → c = some [32, 0]) ∧
    ((∀ f ∈ self.fonts, f.size.isNaN = false) →
      ∀ f ∈ self.fonts, (preload_targets tr).count f = 1) ∧
    font_manager_get_cache self = some (current_cache tr) ∧
    (∀ env c self' did, call.exec env self c = some (self', did) →
      self'.fonts = self.fonts ++ preload_targets did) ∧
    (∀ w out, font_manager_set_cache self w = some out →
      preload_targets out.trace = [] ∧ out.self.fonts = self.fonts) ∧
    (∀ env p s, registered self p s →
      (font_manager_get_from_filename env self p s).trace = [] ∧
      (font_manager_get_from_filename env self p s).self = self) := by
  obtain ⟨hpair, htargets, hcache, htimed⟩ := reachable_invariants self tr h
  refine ⟨htargets, htimed, ?_, ?_, hcache, ?_, ?_, ?_⟩
  · intro pre f c post hsplit hnoset
    rw [(htimed pre f c post hsplit).1]
    simp only [current_cache]
    rw [last_set_cache_no_set pre hnoset]
    rfl
  · intro hnan f hf
    rw [htargets]
    exact List.count_eq_one_of_mem (nodup_of_distinct_identity self.fonts hpair hnan) hf
  · intro env c self' did hc
    obtain ⟨_, hcase⟩ := exec_cases env self self' c did hc
    rcases hcase with ⟨hfonts, _, hquiet, _⟩ | ⟨p0, q0, p, s, f0, hdid, hp0, hq0, hself, _⟩
    · rw [hfonts, hquiet, List.append_nil]
    · rw [hself, hdid, preload_targets_append, hp0]
      simp [preload_targets, hq0]
  · intro w out hout
    obtain ⟨buf, _, _, hself, hpre, _⟩ := set_cache_some self w out hout
    exact ⟨hpre, by rw [hself]⟩
  · intro env p s hreg
    rcases get_from_filename_cases env self p s with
      ⟨g, _, _, _, hf⟩ | ⟨hn, _⟩ | ⟨hn, _⟩
    · rw [hf]
      exact ⟨rfl, rfl⟩
    · exact absurd hreg hn
    · exact absurd hreg hn

theorem cache_preload_timing_witness :
    preload_targets sample_trace = sample_three.fonts ∧
    (some [97, 98, 0] : Option wbuffer) = some (current_cache (sample_trace.take 8)) :=
  have h := cache_preload_timing sample_three sample_trace sample_reachable
  ⟨h.1,
   (h.2.1 (sample_trace.take 8) ⟨4096 + 6291456, valid_ttf, size14⟩ (some [97, 98, 0])
      [event.free_filename valid_ttf] rfl).1⟩

end FontManager
